import Mathlib

/-!
Verification of the cosma file-indexing system: data model, storage layer,
processing pipeline, and the CLI fuzzy filter.

The pipeline and storage operations are modelled from the specification
(`spec.md` §3, §4.1, §4.2); the fuzzy-matching functions are translated
from `packages/cli/main.py`.
-/

/-- Modelled from the spec: the `Status` state machine for a FileRecord
(`DISCOVERED → PARSED → SUMMARIZED → COMPLETE`, with `FAILED` reachable
from any non-terminal state). Mirrors `ProcessingStatus` used by the tests. -/
inductive ProcessingStatus where
  | DISCOVERED
  | PARSED
  | SUMMARIZED
  | COMPLETE
  | FAILED
deriving DecidableEq, Repr

/-- Modelled from the spec: `FileRecord`, one entry per indexed filesystem
path (spec §3). Timestamps are abstracted as naturals; the embedding vector
as a list of integers. -/
structure FileRecord where
  file_path : String
  filename : String
  extension : String
  file_size : Nat
  created : Nat
  modified : Nat
  accessed : Nat
  content_type : Option String
  content : Option String
  content_hash : Option String
  summary : Option String
  title : Option String
  keywords : List String
  embedding : Option (List Int)
  embedding_model : Option String
  embedding_dimensions : Option Nat
  parsed_at : Option Nat
  summarized_at : Option Nat
  embedded_at : Option Nat
  status : ProcessingStatus
  processing_error : Option String
deriving DecidableEq, Repr

/-- Modelled from the spec: one row of the files table (assigned identifier
plus the FileRecord scalar fields). -/
structure FileRow where
  id : Nat
  record : FileRecord
deriving DecidableEq, Repr

/-- Modelled from the spec: one row of the full-text index over
filename/content/summary/title, keyed by the file row id (spec §6). -/
structure FtsRow where
  rowid : Nat
  filename : String
  content : String
  summary : String
  title : String
deriving DecidableEq, Repr

/-- Modelled from the spec: one row of the vector table storing
file id → fixed-length numeric vector + model id + dimensionality. -/
structure VectorRow where
  file_id : Nat
  vec : List Int
  model : String
  dims : Nat
deriving DecidableEq, Repr

/-- Modelled from the spec: `WatchedDirectory`, a root path under
continuous observation (spec §3). -/
structure WatchedDirectory where
  id : Nat
  path : String
  recursive : Bool
  file_pattern : Option String
  active : Bool
deriving DecidableEq, Repr

/-- Modelled from the spec: the `Store` state — files table, full-text
index, vector table, and watched-directories table (spec §4.2, §6),
with the next identifiers to be assigned. -/
structure Store where
  files : List FileRow
  fts : List FtsRow
  vectors : List VectorRow
  dirs : List WatchedDirectory
  next_file_id : Nat
  next_dir_id : Nat
deriving DecidableEq, Repr

/-- Modelled from the spec: the full-text row derived from a record,
indexing filename/content/summary/title. -/
def mkFtsRow (i : Nat) (r : FileRecord) : FtsRow :=
  { rowid := i
    filename := r.filename
    content := r.content.getD ""
    summary := r.summary.getD ""
    title := r.title.getD "" }

/-- Modelled from the spec: `get_file_by_path(path) -> record | absent`
(spec §4.2). Absence is the value `none`, never an error. -/
def Store.get_file_by_path (s : Store) (p : String) : Option FileRecord :=
  (s.files.find? (fun row => row.record.file_path == p)).map FileRow.record

/-- Modelled from the spec: `get_file_by_hash(hash) -> record | absent`. -/
def Store.get_file_by_hash (s : Store) (h : String) : Option FileRecord :=
  (s.files.find? (fun row => row.record.content_hash == some h)).map FileRow.record

/-- Modelled from the spec: lookup by assigned identifier, absent as a value. -/
def Store.get_file_by_id (s : Store) (i : Nat) : Option FileRecord :=
  (s.files.find? (fun row => row.id == i)).map FileRow.record

/-- Modelled from the spec: `upsert_file(record) -> id` — insert-or-update
keyed by path; returns the assigned identifier; last write wins on content
fields (spec §4.2). The full-text row for the same id is rewritten. -/
def Store.upsert_file (s : Store) (r : FileRecord) : Nat × Store :=
  match s.files.find? (fun row => row.record.file_path == r.file_path) with
  | some row =>
      (row.id,
        { s with
            files := s.files.map
              (fun q => if q.id == row.id then { q with record := r } else q)
            fts := (s.fts.filter (fun f => f.rowid != row.id))
              ++ [mkFtsRow row.id r] })
  | none =>
      (s.next_file_id,
        { s with
            files := s.files ++ [{ id := s.next_file_id, record := r }]
            fts := s.fts ++ [mkFtsRow s.next_file_id r]
            next_file_id := s.next_file_id + 1 })

/-- Modelled from the spec: `upsert_file_embeddings(record)` — separately
persists the vector + model metadata for the record's row (spec §4.2). -/
def Store.upsert_file_embeddings (s : Store) (r : FileRecord) : Store :=
  match s.files.find? (fun row => row.record.file_path == r.file_path),
        r.embedding, r.embedding_model, r.embedding_dimensions with
  | some row, some v, some m, some d =>
      { s with vectors := (s.vectors.filter (fun w => w.file_id != row.id))
          ++ [{ file_id := row.id, vec := v, model := m, dims := d }] }
  | _, _, _, _ => s

/-- Modelled from the spec: `delete_file(path) -> removed record | absent`
— removes metadata, full-text row, and vector row together and returns the
record as it was immediately before deletion (spec §4.2). -/
def Store.delete_file (s : Store) (p : String) : Option FileRecord × Store :=
  match s.files.find? (fun row => row.record.file_path == p) with
  | none => (none, s)
  | some row =>
      (some row.record,
        { s with
            files := s.files.filter (fun q => q.record.file_path != p)
            fts := s.fts.filter (fun f => f.rowid != row.id)
            vectors := s.vectors.filter (fun w => w.file_id != row.id) })

/-- Squared Euclidean distance between two stored vectors, a non-negative
dissimilarity measure as required by spec §4.2. -/
def sqDist (v w : List Int) : Int :=
  (List.zipWith (fun a b => (a - b) * (a - b)) v w).sum

/-- Modelled from the spec: result ordering for `search_similar_files` —
ascending by distance, ties broken by most-recent `modified`. -/
def simLE (a b : FileRecord × Int) : Prop :=
  a.2 < b.2 ∨ (a.2 = b.2 ∧ b.1.modified ≤ a.1.modified)

instance : DecidableRel simLE := fun a b => by
  unfold simLE; exact inferInstance

instance : IsTotal (FileRecord × Int) simLE where
  total a b := by
    unfold simLE
    rcases lt_trichotomy a.2 b.2 with h | h | h
    · exact Or.inl (Or.inl h)
    · rcases Nat.le_total b.1.modified a.1.modified with hm | hm
      · exact Or.inl (Or.inr ⟨h, hm⟩)
      · exact Or.inr (Or.inr ⟨h.symm, hm⟩)
    · exact Or.inr (Or.inl h)

instance : IsTrans (FileRecord × Int) simLE where
  trans a b c hab hbc := by
    unfold simLE at *
    rcases hab with h1 | ⟨h1, m1⟩
    · rcases hbc with h2 | ⟨h2, _⟩
      · exact Or.inl (h1.trans h2)
      · exact Or.inl (h2 ▸ h1)
    · rcases hbc with h2 | ⟨h2, m2⟩
      · exact Or.inl (h1 ▸ h2)
      · exact Or.inr ⟨h1.trans h2, m2.trans m1⟩

/-- Modelled from the spec: `search_similar_files(query_vector, limit)` —
nearest-neighbor scan over stored vectors joined with the files table;
results ordered ascending by distance, ties broken by most-recent
`modified`, truncated to `limit` (spec §4.2). -/
def Store.search_similar_files (s : Store) (q : List Int) (limit : Nat) :
    List (FileRecord × Int) :=
  let cands := s.files.filterMap (fun row =>
    match s.vectors.find? (fun w => w.file_id == row.id) with
    | some w => some (row.record, sqDist q w.vec)
    | none => none)
  (List.insertionSort simLE cands).take limit

/-- Whether the pattern occurs at the start of the text. -/
def startsWithL : List Char → List Char → Bool
  | _, [] => true
  | [], _ :: _ => false
  | t :: ts, q :: qs => t == q && startsWithL ts qs

/-- Whether the pattern occurs contiguously anywhere in the text. -/
def containsSubL : List Char → List Char → Bool
  | [], q => q.isEmpty
  | t :: ts, q => startsWithL (t :: ts) q || containsSubL ts q

/-- Modelled from the spec: full-text match of a query against one indexed
row (over filename/content/summary/title, spec §4.2). -/
def ftsMatches (q : String) (f : FtsRow) : Bool :=
  containsSubL f.filename.data q.data || containsSubL f.content.data q.data
    || containsSubL f.summary.data q.data || containsSubL f.title.data q.data

/-- Modelled from the spec: relevance as the number of matched fields —
a non-negative rank where higher is more relevant. -/
def ftsRelevance (q : String) (f : FtsRow) : Nat :=
  (if containsSubL f.filename.data q.data then 1 else 0)
    + (if containsSubL f.content.data q.data then 1 else 0)
    + (if containsSubL f.summary.data q.data then 1 else 0)
    + (if containsSubL f.title.data q.data then 1 else 0)

/-- Modelled from the spec: ordering for `keyword_search` — descending by
relevance score. -/
def kwLE (a b : FileRecord × Nat) : Prop := b.2 ≤ a.2

instance : DecidableRel kwLE := fun a b => by
  unfold kwLE; exact inferInstance

instance : IsTotal (FileRecord × Nat) kwLE where
  total a b := by unfold kwLE; exact Nat.le_total b.2 a.2

instance : IsTrans (FileRecord × Nat) kwLE where
  trans _ _ _ hab hbc := Nat.le_trans hbc hab

/-- Modelled from the spec: `keyword_search(query_text, limit)` — full-text
match over filename/content/summary/title via the index joined with the
files table, ordered descending by relevance score (spec §4.2). -/
def Store.keyword_search (s : Store) (q : String) (limit : Nat) :
    List (FileRecord × Nat) :=
  let cands := s.files.filterMap (fun row =>
    match s.fts.find? (fun f => f.rowid == row.id) with
    | some f => if ftsMatches q f then some (row.record, ftsRelevance q f) else none
    | none => none)
  (List.insertionSort kwLE cands).take limit

/-- Modelled from the spec: `add_watched_directory` — explicit registration
of a root path, created active with an assigned identifier (spec §3, §4.2). -/
def Store.add_watched_directory (s : Store) (d : WatchedDirectory) :
    Nat × Store :=
  (s.next_dir_id,
    { s with
        dirs := s.dirs ++ [{ d with id := s.next_dir_id, active := true }]
        next_dir_id := s.next_dir_id + 1 })

/-- Modelled from the spec: `get_watched_directories(active_only)` (spec §4.2). -/
def Store.get_watched_directories (s : Store) (activeOnly : Bool) :
    List WatchedDirectory :=
  if activeOnly then s.dirs.filter (fun d => d.active) else s.dirs

/-- Modelled from the spec: `delete_watched_directory(id)` — soft-delete:
marks the row inactive and returns the directory as it was before
deactivation; the row is not removed (spec §4.2). -/
def Store.delete_watched_directory (s : Store) (i : Nat) :
    Option WatchedDirectory × Store :=
  match s.dirs.find? (fun d => d.id == i) with
  | none => (none, s)
  | some d =>
      (some d,
        { s with dirs := s.dirs.map
                   (fun e => if e.id == i then { e with active := false } else e) })

/-- Modelled from the spec: the externally supplied capability interfaces
(spec §6). Each transforms one aspect of a file record: the parser yields
content, content type and content hash; the summarizer yields summary,
title and keywords; the embedder yields the vector, model id and
dimensionality. A failure carries a human-readable message. -/
structure Capabilities where
  parse : FileRecord → Except String (String × String × String)
  summarize : FileRecord → Except String (String × String × List String)
  embed : FileRecord → Except String (List Int × String × Nat)

/-- Modelled from the spec: `_has_file_changed` — the new record's content
hash, when a comparison with the stored hash is possible, is the
authoritative change signal; otherwise fall back to comparing modification
timestamps (new `modified` strictly greater than stored `modified`); with
no signal of change, the file counts as unchanged (spec §4.1 step 1). -/
def has_file_changed (newRec stored : FileRecord) : Bool :=
  match newRec.content_hash, stored.content_hash with
  | some h1, some h2 => h1 != h2
  | _, _ => decide (stored.modified < newRec.modified)

/-- Modelled from the spec: `_should_skip_file` — skip processing only if
a record already stored at the same path has status `COMPLETE` and the
file has not changed (spec §4.1 step 1). -/
def should_skip_file (s : Store) (r : FileRecord) : Bool :=
  match s.get_file_by_path r.file_path with
  | none => false
  | some stored =>
      stored.status == ProcessingStatus.COMPLETE && !(has_file_changed r stored)

/-- Modelled from the spec: the parse stage — on success sets content,
content type, content hash, `parsed_at`, status `PARSED` (spec §4.1 step 2). -/
def applyParse (t : Nat) (r : FileRecord) (p : String × String × String) :
    FileRecord :=
  { r with
      content := some p.1
      content_type := some p.2.1
      content_hash := some p.2.2
      parsed_at := some t
      status := ProcessingStatus.PARSED }

/-- Modelled from the spec: the summarize stage — sets summary, title,
keywords, `summarized_at`, status `SUMMARIZED` (spec §4.1 step 3). -/
def applySummarize (t : Nat) (r : FileRecord) (p : String × String × List String) :
    FileRecord :=
  { r with
      summary := some p.1
      title := some p.2.1
      keywords := p.2.2
      summarized_at := some t
      status := ProcessingStatus.SUMMARIZED }

/-- Modelled from the spec: the embed stage — sets embedding vector, model
id, dimensionality, `embedded_at`, status `COMPLETE` (spec §4.1 step 4). -/
def applyEmbed (t : Nat) (r : FileRecord) (p : List Int × String × Nat) :
    FileRecord :=
  { r with
      embedding := some p.1
      embedding_model := some p.2.1
      embedding_dimensions := some p.2.2
      embedded_at := some t
      status := ProcessingStatus.COMPLETE }

/-- Modelled from the spec: the failure policy — status `FAILED`, the error
message recorded on the record (spec §4.1). -/
def failRecord (r : FileRecord) (e : String) : FileRecord :=
  { r with status := ProcessingStatus.FAILED, processing_error := some e }

/-- Modelled from the spec: `Pipeline.process_file(record)` — skip decision,
then parse → summarize → embed, persisting after each stage; a fault at any
stage marks the record `FAILED` with the message recorded, persists it, and
re-raises the fault to the caller (spec §4.1). The clock `t` supplies the
per-stage completion timestamps in increasing order. -/
def process_file (caps : Capabilities) (s : Store) (t : Nat) (r : FileRecord) :
    Except String FileRecord × Store :=
  if should_skip_file s r then (Except.ok r, s)
  else
    match caps.parse r with
    | Except.error e => (Except.error e, (s.upsert_file (failRecord r e)).2)
    | Except.ok pp =>
      let r1 := applyParse t r pp
      let s1 := (s.upsert_file r1).2
      match caps.summarize r1 with
      | Except.error e => (Except.error e, (s1.upsert_file (failRecord r1 e)).2)
      | Except.ok sp =>
        let r2 := applySummarize (t + 1) r1 sp
        let s2 := (s1.upsert_file r2).2
        match caps.embed r2 with
        | Except.error e => (Except.error e, (s2.upsert_file (failRecord r2 e)).2)
        | Except.ok ep =>
          let r3 := applyEmbed (t + 2) r2 ep
          (Except.ok r3, (s2.upsert_file r3).2)

/-- Translated from `packages/cli/main.py`: the inner `while` loop of
`FuzzyListView._fuzzy_match` — advance through the text until the sought
character; return the remaining text after it, or `none`. -/
def scanFor (c : Char) : List Char → Option (List Char)
  | [] => none
  | x :: xs => if x = c then some xs else scanFor c xs

/-- Translated from `packages/cli/main.py`:
`FuzzyListView._fuzzy_match(text, query)` — check whether the query
characters appear in the text in order. -/
def fuzzy_match (text : List Char) : List Char → Bool
  | [] => true
  | c :: q =>
    match scanFor c text with
    | none => false
    | some rest => fuzzy_match rest q

/-- Translated from `packages/cli/main.py`: the view state of
`FuzzyListView` — the full item list and the currently filtered list. -/
structure FuzzyListView where
  all_items : List (List Char)
  filtered_items : List (List Char)
deriving DecidableEq, Repr

/-- Translated from `packages/cli/main.py`: `FuzzyListView.__init__` —
both lists start as the given items. -/
def FuzzyListView.init (items : List (List Char)) : FuzzyListView :=
  { all_items := items, filtered_items := items }

/-- Python `str.lower`, modelled characterwise. -/
def lowerStr (t : List Char) : List Char := t.map Char.toLower

/-- Translated from `packages/cli/main.py`: `FuzzyListView.filter_items` —
an empty query restores the full list; otherwise keep, in order, the items
whose lowercased text fuzzy-matches the lowercased query. -/
def FuzzyListView.filter_items (v : FuzzyListView) (query : List Char) :
    FuzzyListView :=
  if query.isEmpty then { v with filtered_items := v.all_items }
  else
    { v with filtered_items :=
        v.all_items.filter (fun item => fuzzy_match (lowerStr item) (lowerStr query)) }

lemma scanFor_sublist {c : Char} :
    ∀ {t rest : List Char}, scanFor c t = some rest → List.Sublist (c :: rest) t := by
  intro t
  induction t with
  | nil => intro rest h; simp [scanFor] at h
  | cons x xs ih =>
    intro rest h
    by_cases hx : x = c
    · simp [scanFor, hx] at h
      subst h; subst hx
      exact List.Sublist.refl _
    · simp [scanFor, hx] at h
      exact (ih h).cons x

lemma scanFor_complete {c : Char} :
    ∀ {t q : List Char}, List.Sublist (c :: q) t →
      ∃ rest, scanFor c t = some rest ∧ List.Sublist q rest := by
  intro t
  induction t with
  | nil => intro q h; exact absurd h (by simp)
  | cons x xs ih =>
    intro q h
    by_cases hx : x = c
    · subst hx
      refine ⟨xs, by simp [scanFor], ?_⟩
      rcases List.sublist_cons_iff.mp h with h' | ⟨r, hr, hr'⟩
      · exact (List.sublist_cons_self x q).trans h'
      · cases hr; exact hr'
    · rcases List.sublist_cons_iff.mp h with h' | ⟨r, hr, hr'⟩
      · rcases ih h' with ⟨rest, hs, hq⟩
        exact ⟨rest, by simp [scanFor, hx, hs], hq⟩
      · cases hr; exact absurd rfl hx

/-- C9: `FuzzyListView._fuzzy_match(text, query)` returns `True` if and only
if the query is a subsequence of the text (the characters of the query all
occur in the text in the same relative order); in particular it returns
`True` for the empty query on every text. -/
theorem fuzzy_match_iff_subsequence (text query : List Char) :
    (fuzzy_match text query = true ↔ List.Sublist query text) ∧
      fuzzy_match text [] = true := by
  refine ⟨?_, rfl⟩
  induction query generalizing text with
  | nil => simp [fuzzy_match, List.nil_sublist]
  | cons c q ih =>
    cases hs : scanFor c text with
    | none =>
      simp only [fuzzy_match, hs]
      constructor
      · intro h; exact absurd h (by simp)
      · intro h
        rcases scanFor_complete h with ⟨rest, hr, _⟩
        rw [hs] at hr; exact absurd hr (by simp)
    | some rest =>
      simp only [fuzzy_match, hs]
      constructor
      · intro h
        exact ((ih rest).mp h).cons₂ c |>.trans (scanFor_sublist hs)
      · intro h
        rcases scanFor_complete h with ⟨rest', hr, hq⟩
        rw [hs] at hr
        cases hr
        exact (ih rest).mpr hq

/-- C9 witness: the equivalence evaluated at a concrete text and query. -/
theorem fuzzy_match_iff_subsequence_witness :
    fuzzy_match "cosmabackend".data "cbk".data = true :=
  (fuzzy_match_iff_subsequence "cosmabackend".data "cbk".data).1.mpr (by decide)

/-- C10: after `FuzzyListView.filter_items(query)`, `filtered_items` is
exactly the subsequence of `all_items`, in their original order, whose
lowercased text fuzzy-matches the lowercased query; `all_items` itself is
unchanged; and for the empty query `filtered_items` equals `all_items`. -/
theorem filter_items_spec (v : FuzzyListView) (query : List Char) :
    (v.filter_items query).filtered_items
        = v.all_items.filter (fun item => fuzzy_match (lowerStr item) (lowerStr query)) ∧
      (v.filter_items query).all_items = v.all_items ∧
      (query = [] → (v.filter_items query).filtered_items = v.all_items) := by
  cases query with
  | nil =>
    refine ⟨?_, rfl, fun _ => rfl⟩
    simp only [FuzzyListView.filter_items, List.isEmpty_nil, if_pos]
    exact (List.filter_eq_self.mpr (fun a _ => rfl)).symm
  | cons c q =>
    exact ⟨rfl, rfl, fun h => absurd h (by simp)⟩

/-- C10 witness: the specification evaluated on a concrete view and the
empty query. -/
theorem filter_items_spec_witness :
    ((FuzzyListView.init ["ab".data, "cd".data]).filter_items []).filtered_items
      = ["ab".data, "cd".data] :=
  (filter_items_spec (FuzzyListView.init ["ab".data, "cd".data]) []).2.2 rfl

/-- A concrete record builder used by the evaluation theorems. -/
def baseRec (p : String) (m : Nat) (h : Option String) (st : ProcessingStatus) :
    FileRecord :=
  { file_path := p
    filename := p
    extension := ".txt"
    file_size := 1
    created := 0
    modified := m
    accessed := 0
    content_type := none
    content := none
    content_hash := h
    summary := none
    title := none
    keywords := []
    embedding := none
    embedding_model := none
    embedding_dimensions := none
    parsed_at := none
    summarized_at := none
    embedded_at := none
    status := st
    processing_error := none }

/-- The empty store. -/
def emptyStore : Store :=
  { files := [], fts := [], vectors := [], dirs := []
    next_file_id := 1, next_dir_id := 1 }

/-- C7: lookup of an unstored path, hash or id yields the absent value
`none`; the operations are total functions, so absence is a value, never
a raised error. -/
theorem lookup_absent_is_value (s : Store) (p hsh : String) (i : Nat)
    (hp : ∀ row ∈ s.files, row.record.file_path ≠ p)
    (hh : ∀ row ∈ s.files, row.record.content_hash ≠ some hsh)
    (hi : ∀ row ∈ s.files, row.id ≠ i) :
    s.get_file_by_path p = none ∧ s.get_file_by_hash hsh = none ∧
      s.get_file_by_id i = none := by
  refine ⟨?_, ?_, ?_⟩ <;>
    simp only [Store.get_file_by_path, Store.get_file_by_hash,
      Store.get_file_by_id, Option.map_eq_none', List.find?_eq_none,
      beq_iff_eq, ne_eq]
  · exact hp
  · exact hh
  · exact hi

/-- C7 witness: the lookups evaluated on the empty store. -/
theorem lookup_absent_is_value_witness :
    emptyStore.get_file_by_path "/x" = none ∧
      emptyStore.get_file_by_hash "h" = none ∧
      emptyStore.get_file_by_id 7 = none :=
  lookup_absent_is_value emptyStore "/x" "h" 7 (by simp [emptyStore])
    (by simp [emptyStore]) (by simp [emptyStore])

/-- Stated from the claim's words: the change predicate — the new record's
content hash is known and differs from the stored hash, or, when no hash
comparison is possible, the new record's `modified` timestamp is strictly
greater than the stored one. -/
def changedSpec (newRec stored : FileRecord) : Prop :=
  (∃ h1 h2, newRec.content_hash = some h1 ∧ stored.content_hash = some h2
    ∧ h1 ≠ h2)
  ∨ ((newRec.content_hash = none ∨ stored.content_hash = none)
    ∧ stored.modified < newRec.modified)

lemma has_file_changed_iff (n st : FileRecord) :
    has_file_changed n st = true ↔ changedSpec n st := by
  unfold has_file_changed changedSpec
  cases hn : n.content_hash with
  | none => cases hst : st.content_hash <;> simp
  | some h1 =>
    cases hst : st.content_hash with
    | none => simp
    | some h2 => simp [bne_iff_ne]

/-- C1: processing is skipped if and only if a record already stored at the
same path has status `COMPLETE` and the file is unchanged, where change is
a known differing content hash, or, with no hash comparison possible, a
strictly greater `modified` timestamp; with no signal of change the file
is skipped, and a skipped call leaves the store untouched and returns the
record unprocessed. -/
theorem should_skip_iff (s : Store) (r : FileRecord) :
    (should_skip_file s r = true ↔
      ∃ stored, s.get_file_by_path r.file_path = some stored ∧
        stored.status = ProcessingStatus.COMPLETE ∧ ¬ changedSpec r stored) ∧
      (∀ caps t, should_skip_file s r = true →
        process_file caps s t r = (Except.ok r, s)) := by
  constructor
  · unfold should_skip_file
    cases hget : s.get_file_by_path r.file_path with
    | none => simp
    | some stored =>
      simp only [Option.some.injEq, Bool.and_eq_true, beq_iff_eq,
        Bool.not_eq_true']
      constructor
      · rintro ⟨hc, hch⟩
        refine ⟨stored, rfl, hc, ?_⟩
        rw [← has_file_changed_iff]
        simp [hch]
      · rintro ⟨st', hst', hc, hch⟩
        cases hst'
        refine ⟨hc, ?_⟩
        rw [← has_file_changed_iff] at hch
        simpa using hch
  · intro caps t h
    simp [process_file, h]

/-- C1 witness: a store holding a `COMPLETE` record with the same hash and
timestamp skips the new record. -/
theorem should_skip_iff_witness :
    should_skip_file
        { files := [{ id := 1
                      record := baseRec "/a.txt" 5 (some "h1")
                        ProcessingStatus.COMPLETE }]
          fts := [], vectors := [], dirs := []
          next_file_id := 2, next_dir_id := 1 }
        (baseRec "/a.txt" 5 (some "h1") ProcessingStatus.DISCOVERED) = true :=
  (should_skip_iff _ _).1.mpr
    ⟨baseRec "/a.txt" 5 (some "h1") ProcessingStatus.COMPLETE,
      by simp [Store.get_file_by_path, List.find?, baseRec],
      rfl,
      by simp [changedSpec, baseRec]⟩

lemma find?_update_record (l : List FileRow) (p : String) (row : FileRow)
    (r : FileRecord)
    (hfind : l.find? (fun q => q.record.file_path == p) = some row)
    (hr : r.file_path = p) :
    (l.map (fun q => if q.id == row.id then { q with record := r } else q)).find?
        (fun q => q.record.file_path == p) = some (FileRow.mk row.id r) := by
  induction l with
  | nil => simp at hfind
  | cons x xs ih =>
    by_cases hx : x.record.file_path = p
    · have hrow : x = row := by
        rw [List.find?_cons_of_pos _ (by simp [hx])] at hfind
        exact Option.some_inj.mp hfind
      subst hrow
      have hhead : (if (x.id == x.id) = true then FileRow.mk x.id r else x)
          = FileRow.mk x.id r := by simp
      rw [List.map_cons, hhead, List.find?_cons_of_pos _ (by simp [hr])]
    · rw [List.find?_cons_of_neg _ (by simp [hx])] at hfind
      by_cases hid : x.id = row.id
      · have hhead : (if (x.id == row.id) = true then FileRow.mk x.id r else x)
            = FileRow.mk row.id r := by simp [hid]
        rw [List.map_cons, hhead, List.find?_cons_of_pos _ (by simp [hr])]
      · have hhead : (if (x.id == row.id) = true then FileRow.mk x.id r else x)
            = x := by simp [hid]
        rw [List.map_cons, hhead, List.find?_cons_of_neg _ (by simp [hx])]
        exact ih hfind

lemma find?_append_new (l : List FileRow) (p : String) (n : Nat)
    (r : FileRecord)
    (hfind : l.find? (fun q => q.record.file_path == p) = none)
    (hr : r.file_path = p) :
    (l ++ [FileRow.mk n r]).find? (fun q => q.record.file_path == p)
      = some (FileRow.mk n r) := by
  rw [List.find?_append, hfind]
  simp [hr]

lemma get_after_upsert (s : Store) (r : FileRecord) :
    (s.upsert_file r).2.get_file_by_path r.file_path = some r := by
  cases hfind : s.files.find? (fun row => row.record.file_path == r.file_path) with
  | none =>
    have hfiles : (s.upsert_file r).2.files = s.files ++ [FileRow.mk s.next_file_id r] := by
      unfold Store.upsert_file
      rw [hfind]
    rw [Store.get_file_by_path, hfiles,
      find?_append_new s.files r.file_path s.next_file_id r hfind rfl]
    rfl
  | some row =>
    have hfiles : (s.upsert_file r).2.files
        = s.files.map (fun q => if q.id == row.id then { q with record := r } else q) := by
      unfold Store.upsert_file
      rw [hfind]
    rw [Store.get_file_by_path, hfiles,
      find?_update_record s.files r.file_path row r hfind rfl]
    rfl

/-- C2: when a pipeline stage raises, the record is persisted `FAILED`
with the fault's non-empty message recorded, and the same fault is
re-raised to the caller; in particular, after a Summarizer failure on a
record with no prior summarize timestamp, the stored record has a
non-null `parsed_at` and a null `summarized_at`. -/
theorem process_file_failure_persistence (caps : Capabilities) (s : Store)
    (t : Nat) (r : FileRecord) (e : String) (hne : e ≠ "")
    (h : (process_file caps s t r).1 = Except.error e) :
    ∃ rec, (process_file caps s t r).2.get_file_by_path r.file_path = some rec ∧
      rec.status = ProcessingStatus.FAILED ∧
      rec.processing_error = some e ∧ rec.processing_error ≠ some "" ∧
      (∀ pp, r.summarized_at = none → caps.parse r = Except.ok pp →
        caps.summarize (applyParse t r pp) = Except.error e →
        rec.parsed_at = some t ∧ rec.summarized_at = none) := by
  by_cases hskip : should_skip_file s r
  · unfold process_file at h
    rw [if_pos hskip] at h
    exact absurd h (by simp)
  · unfold process_file at h ⊢
    rw [if_neg hskip] at h ⊢
    cases hp : caps.parse r with
    | error e1 =>
      simp only [hp] at h ⊢
      cases h
      refine ⟨failRecord r e, get_after_upsert s (failRecord r e), rfl, rfl,
        by simpa [failRecord] using hne, ?_⟩
      intro pp _ hpp _
      exact absurd hpp (by simp)
    | ok pp =>
      simp only [hp] at h ⊢
      cases hsum : caps.summarize (applyParse t r pp) with
      | error e1 =>
        simp only [hsum] at h ⊢
        cases h
        refine ⟨failRecord (applyParse t r pp) e,
          get_after_upsert _ (failRecord (applyParse t r pp) e), rfl, rfl,
          by simpa [failRecord] using hne, ?_⟩
        intro pp' hfr _ _
        exact ⟨rfl, hfr⟩
      | ok sp =>
        simp only [hsum] at h ⊢
        cases hemb : caps.embed (applySummarize (t + 1) (applyParse t r pp) sp) with
        | error e1 =>
          simp only [hemb] at h ⊢
          cases h
          refine ⟨failRecord (applySummarize (t + 1) (applyParse t r pp) sp) e,
            get_after_upsert _ _, rfl, rfl,
            by simpa [failRecord] using hne, ?_⟩
          intro pp' _ hpp' hsum'
          cases hpp'
          rw [hsum] at hsum'
          exact absurd hsum' (by simp)
        | ok ep =>
          simp only [hemb] at h
          exact absurd h (by simp)

/-- Capabilities whose summarize stage always raises. -/
def failingSummarizerCaps : Capabilities :=
  { parse := fun _ => Except.ok ("text body", "text/plain", "h1")
    summarize := fun _ => Except.error "Summarization failed"
    embed := fun _ => Except.ok ([1, 2], "model-a", 2) }

/-- A freshly discovered concrete record. -/
def discRec : FileRecord := baseRec "/a.txt" 5 none ProcessingStatus.DISCOVERED

/-- C2 witness: a Summarizer failure on a fresh record over the empty
store, evaluated concretely. -/
theorem process_file_failure_persistence_witness :
    ∃ rec, (process_file failingSummarizerCaps emptyStore 0
          discRec).2.get_file_by_path discRec.file_path = some rec ∧
      rec.status = ProcessingStatus.FAILED ∧
      rec.processing_error = some "Summarization failed" ∧
      rec.processing_error ≠ some "" ∧
      (∀ pp, discRec.summarized_at = none →
        failingSummarizerCaps.parse discRec = Except.ok pp →
        failingSummarizerCaps.summarize (applyParse 0 discRec pp)
          = Except.error "Summarization failed" →
        rec.parsed_at = some 0 ∧ rec.summarized_at = none) :=
  process_file_failure_persistence failingSummarizerCaps emptyStore 0 discRec
    "Summarization failed" (by decide) (by rfl)

/-- C3: on a freshly discovered record (no record stored at its path), a
successful `process_file` yields `parsed_at ≤ summarized_at ≤ embedded_at`,
all three non-null, and final status `COMPLETE`. -/
theorem process_file_success_ordering (caps : Capabilities) (s : Store)
    (t : Nat) (r r' : FileRecord)
    (hfresh : s.get_file_by_path r.file_path = none)
    (h : (process_file caps s t r).1 = Except.ok r') :
    (∃ a b c, r'.parsed_at = some a ∧ r'.summarized_at = some b ∧
        r'.embedded_at = some c ∧ a ≤ b ∧ b ≤ c) ∧
      r'.status = ProcessingStatus.COMPLETE := by
  have hskip : should_skip_file s r = false := by
    unfold should_skip_file
    rw [hfresh]
  unfold process_file at h
  rw [hskip] at h
  rw [if_neg (by simp)] at h
  cases hp : caps.parse r with
  | error e1 =>
    simp only [hp] at h
    exact absurd h (by simp)
  | ok pp =>
    simp only [hp] at h
    cases hsum : caps.summarize (applyParse t r pp) with
    | error e1 =>
      simp only [hsum] at h
      exact absurd h (by simp)
    | ok sp =>
      simp only [hsum] at h
      cases hemb : caps.embed (applySummarize (t + 1) (applyParse t r pp) sp) with
      | error e1 =>
        simp only [hemb] at h
        exact absurd h (by simp)
      | ok ep =>
        simp only [hemb] at h
        cases h
        exact ⟨⟨t, t + 1, t + 2, rfl, rfl, rfl, Nat.le_succ t,
          Nat.le_succ (t + 1)⟩, rfl⟩

/-- Capabilities with every stage succeeding. -/
def okCaps : Capabilities :=
  { parse := fun _ => Except.ok ("text body", "text/plain", "h1")
    summarize := fun _ => Except.ok ("a summary", "a title", ["k1"])
    embed := fun _ => Except.ok ([1, 2], "model-a", 2) }

/-- The record produced by running all stages of `okCaps` on `discRec`. -/
def okResultRec : FileRecord :=
  applyEmbed 2 (applySummarize 1 (applyParse 0 discRec
    ("text body", "text/plain", "h1")) ("a summary", "a title", ["k1"]))
    ([1, 2], "model-a", 2)

/-- C3 witness: a concrete successful run over the empty store. -/
theorem process_file_success_ordering_witness :
    (∃ a b c, okResultRec.parsed_at = some a ∧
        okResultRec.summarized_at = some b ∧
        okResultRec.embedded_at = some c ∧ a ≤ b ∧ b ≤ c) ∧
      okResultRec.status = ProcessingStatus.COMPLETE :=
  process_file_success_ordering okCaps emptyStore 0 discRec okResultRec
    (by rfl) (by rfl)

/-- Number of rows stored at a given path. -/
def countPath (files : List FileRow) (p : String) : Nat :=
  files.countP (fun row => row.record.file_path == p)

/-- Store invariant: every assigned row identifier is below the next free
one, and identifiers are pairwise distinct. -/
def StoreWF (s : Store) : Prop :=
  (∀ row ∈ s.files, row.id < s.next_file_id) ∧
    (s.files.map (fun row => row.id)).Nodup

lemma row_eq_of_id_eq (l : List FileRow)
    (hnodup : (l.map (fun row => row.id)).Nodup)
    (row : FileRow) (hmem : row ∈ l) :
    ∀ q ∈ l, q.id = row.id → q = row := fun q hq hid =>
  List.inj_on_of_nodup_map hnodup hq hmem hid

lemma countPath_update (l : List FileRow) (i : Nat) (r : FileRecord)
    (p : String) (hr : r.file_path = p)
    (hall : ∀ q ∈ l, q.id = i → q.record.file_path = p) :
    countPath (l.map (fun q => if q.id == i then { q with record := r } else q)) p
      = countPath l p := by
  induction l with
  | nil => rfl
  | cons x xs ih =>
    have hxs := fun q hq => hall q (List.mem_cons_of_mem x hq)
    unfold countPath at ih ⊢
    by_cases hid : x.id = i
    · have h1 : (if (x.id == i) = true then FileRow.mk x.id r else x)
          = FileRow.mk x.id r := by simp [hid]
      have hx : x.record.file_path = p := hall x (List.mem_cons_self x xs) hid
      rw [List.map_cons, h1, List.countP_cons, List.countP_cons, ih hxs]
      simp [hr, hx]
    · have h1 : (if (x.id == i) = true then FileRow.mk x.id r else x) = x := by
        simp [hid]
      rw [List.map_cons, h1, List.countP_cons, List.countP_cons, ih hxs]

lemma countPath_append_new (l : List FileRow) (n : Nat) (r : FileRecord)
    (p : String) (hr : r.file_path = p) :
    countPath (l ++ [FileRow.mk n r]) p = countPath l p + 1 := by
  unfold countPath
  rw [List.countP_append]
  simp [List.countP_cons, hr]

lemma countPath_zero_of_none (l : List FileRow) (p : String)
    (hfind : l.find? (fun q => q.record.file_path == p) = none) :
    countPath l p = 0 := by
  unfold countPath
  rw [List.countP_eq_zero]
  exact List.find?_eq_none.mp hfind

lemma countPath_pos_of_some (l : List FileRow) (p : String) (row : FileRow)
    (hfind : l.find? (fun q => q.record.file_path == p) = some row) :
    1 ≤ countPath l p := by
  have hpred := List.find?_some hfind
  exact List.countP_pos_iff.mpr ⟨row, List.mem_of_find?_eq_some hfind, hpred⟩

lemma upsert_file_wf (s : Store) (r : FileRecord) (hwf : StoreWF s) :
    StoreWF (s.upsert_file r).2 := by
  obtain ⟨hbound, hnodup⟩ := hwf
  cases hfind : s.files.find? (fun row => row.record.file_path == r.file_path) with
  | none =>
    have hfiles : (s.upsert_file r).2.files
        = s.files ++ [FileRow.mk s.next_file_id r] := by
      unfold Store.upsert_file
      rw [hfind]
    have hnext : (s.upsert_file r).2.next_file_id = s.next_file_id + 1 := by
      unfold Store.upsert_file
      rw [hfind]
    constructor
    · intro row hrow
      rw [hfiles] at hrow
      rw [hnext]
      rcases List.mem_append.mp hrow with hmem | hmem
      · exact Nat.lt_succ_of_lt (hbound row hmem)
      · have : row = FileRow.mk s.next_file_id r := by simpa using hmem
        rw [this]
        exact Nat.lt_succ_self _
    · rw [hfiles, List.map_append]
      refine List.Nodup.append hnodup (List.nodup_singleton _) ?_
      intro a ha hb
      have hbn : a = s.next_file_id := by simpa using hb
      rcases List.mem_map.mp ha with ⟨row, hrow, hid⟩
      subst hbn
      exact absurd (hid ▸ hbound row hrow) (lt_irrefl _)
  | some row =>
    have hfiles : (s.upsert_file r).2.files
        = s.files.map (fun q => if q.id == row.id then { q with record := r } else q) := by
      unfold Store.upsert_file
      rw [hfind]
    have hnext : (s.upsert_file r).2.next_file_id = s.next_file_id := by
      unfold Store.upsert_file
      rw [hfind]
    have hidpres : ∀ q : FileRow,
        (if (q.id == row.id) = true then FileRow.mk q.id r else q).id = q.id := by
      intro q
      by_cases hid : q.id = row.id <;> simp [hid]
    constructor
    · intro q hq
      rw [hfiles] at hq
      rw [hnext]
      rcases List.mem_map.mp hq with ⟨x, hx, hfx⟩
      rw [← hfx, hidpres x]
      exact hbound x hx
    · rw [hfiles, List.map_map]
      have : ((fun row => row.id) ∘
          fun q => if q.id == row.id then { q with record := r } else q)
          = fun q : FileRow => q.id := funext fun q => hidpres q
      rw [this]
      exact hnodup

lemma find?_after_upsert (s : Store) (r : FileRecord) :
    (s.upsert_file r).2.files.find? (fun q => q.record.file_path == r.file_path)
      = some (FileRow.mk (s.upsert_file r).1 r) := by
  cases hfind : s.files.find? (fun row => row.record.file_path == r.file_path) with
  | none =>
    have hfiles : (s.upsert_file r).2.files
        = s.files ++ [FileRow.mk s.next_file_id r] := by
      unfold Store.upsert_file
      rw [hfind]
    have hfst : (s.upsert_file r).1 = s.next_file_id := by
      unfold Store.upsert_file
      rw [hfind]
    rw [hfiles, hfst]
    exact find?_append_new s.files r.file_path s.next_file_id r hfind rfl
  | some row =>
    have hfiles : (s.upsert_file r).2.files
        = s.files.map (fun q => if q.id == row.id then { q with record := r } else q) := by
      unfold Store.upsert_file
      rw [hfind]
    have hfst : (s.upsert_file r).1 = row.id := by
      unfold Store.upsert_file
      rw [hfind]
    rw [hfiles, hfst]
    exact find?_update_record s.files r.file_path row r hfind rfl

lemma countPath_after_upsert (s : Store) (r : FileRecord) (hwf : StoreWF s)
    (hcount : countPath s.files r.file_path ≤ 1) :
    countPath (s.upsert_file r).2.files r.file_path = 1 := by
  cases hfind : s.files.find? (fun row => row.record.file_path == r.file_path) with
  | none =>
    have hfiles : (s.upsert_file r).2.files
        = s.files ++ [FileRow.mk s.next_file_id r] := by
      unfold Store.upsert_file
      rw [hfind]
    rw [hfiles, countPath_append_new s.files s.next_file_id r r.file_path rfl,
      countPath_zero_of_none s.files r.file_path hfind]
  | some row =>
    have hfiles : (s.upsert_file r).2.files
        = s.files.map (fun q => if q.id == row.id then { q with record := r } else q) := by
      unfold Store.upsert_file
      rw [hfind]
    have hall : ∀ q ∈ s.files, q.id = row.id → q.record.file_path = r.file_path := by
      intro q hq hid
      have hq' : q = row :=
        row_eq_of_id_eq s.files hwf.2 row (List.mem_of_find?_eq_some hfind) q hq hid
      rw [hq']
      have hpred := List.find?_some hfind
      exact beq_iff_eq.mp hpred
    rw [hfiles, countPath_update s.files row.id r r.file_path rfl hall]
    exact Nat.le_antisymm hcount (countPath_pos_of_some s.files r.file_path row hfind)

lemma upsert_fst_of_find? (s : Store) (r : FileRecord) (row : FileRow)
    (hfind : s.files.find? (fun q => q.record.file_path == r.file_path) = some row) :
    (s.upsert_file r).1 = row.id := by
  unfold Store.upsert_file
  rw [hfind]

lemma upsert_files_of_find? (s : Store) (r : FileRecord) (row : FileRow)
    (hfind : s.files.find? (fun q => q.record.file_path == r.file_path) = some row) :
    (s.upsert_file r).2.files
      = s.files.map (fun q => if q.id == row.id then { q with record := r } else q) := by
  unfold Store.upsert_file
  rw [hfind]

/-- C4: two successive `upsert_file` calls with the same path return the
same identifier and leave exactly one row at that path, the row holding the
last written content fields. -/
theorem upsert_file_idempotent_identity (s : Store) (r r' : FileRecord)
    (hwf : StoreWF s) (hpath : r'.file_path = r.file_path)
    (hcount : countPath s.files r.file_path ≤ 1) :
    ((s.upsert_file r).2.upsert_file r').1 = (s.upsert_file r).1 ∧
      countPath ((s.upsert_file r).2.upsert_file r').2.files r.file_path = 1 ∧
      ((s.upsert_file r).2.upsert_file r').2.get_file_by_path r.file_path
        = some r' := by
  have hfind1 : (s.upsert_file r).2.files.find?
      (fun q => q.record.file_path == r'.file_path)
      = some (FileRow.mk (s.upsert_file r).1 r) := by
    simp only [hpath]
    exact find?_after_upsert s r
  have hwf1 : StoreWF (s.upsert_file r).2 := upsert_file_wf s r hwf
  have hcount1 : countPath (s.upsert_file r).2.files r.file_path = 1 :=
    countPath_after_upsert s r hwf hcount
  refine ⟨?_, ?_, ?_⟩
  · exact upsert_fst_of_find? (s.upsert_file r).2 r'
      (FileRow.mk (s.upsert_file r).1 r) hfind1
  · have hall : ∀ q ∈ (s.upsert_file r).2.files,
        q.id = (s.upsert_file r).1 → q.record.file_path = r.file_path := by
      intro q hq hid
      have hq' : q = FileRow.mk (s.upsert_file r).1 r := by
        refine row_eq_of_id_eq (s.upsert_file r).2.files hwf1.2
          (FileRow.mk (s.upsert_file r).1 r) ?_ q hq hid
        apply List.mem_of_find?_eq_some
        exact hfind1
      rw [hq']
    rw [upsert_files_of_find? (s.upsert_file r).2 r'
        (FileRow.mk (s.upsert_file r).1 r) hfind1,
      countPath_update (s.upsert_file r).2.files (s.upsert_file r).1 r'
        r.file_path hpath hall]
    exact hcount1
  · rw [← hpath]
    exact get_after_upsert (s.upsert_file r).2 r'
/-- C4 witness: the double upsert evaluated on the empty store. -/
theorem upsert_file_idempotent_identity_witness :
    ((emptyStore.upsert_file discRec).2.upsert_file
        (baseRec "/a.txt" 9 (some "h2") ProcessingStatus.COMPLETE)).1
      = (emptyStore.upsert_file discRec).1 ∧
      countPath ((emptyStore.upsert_file discRec).2.upsert_file
          (baseRec "/a.txt" 9 (some "h2") ProcessingStatus.COMPLETE)).2.files
          discRec.file_path = 1 ∧
      ((emptyStore.upsert_file discRec).2.upsert_file
          (baseRec "/a.txt" 9 (some "h2") ProcessingStatus.COMPLETE)).2.get_file_by_path
          discRec.file_path
        = some (baseRec "/a.txt" 9 (some "h2") ProcessingStatus.COMPLETE) :=
  upsert_file_idempotent_identity emptyStore discRec
    (baseRec "/a.txt" 9 (some "h2") ProcessingStatus.COMPLETE)
    ⟨by simp [emptyStore], by simp [emptyStore]⟩ rfl
    (by simp [emptyStore, countPath])

lemma delete_file_parts (s : Store) (p : String) (row : FileRow)
    (hfind : s.files.find? (fun q => q.record.file_path == p) = some row) :
    (s.delete_file p).1 = some row.record ∧
      (s.delete_file p).2.files = s.files.filter (fun q => q.record.file_path != p) ∧
      (s.delete_file p).2.fts = s.fts.filter (fun f => f.rowid != row.id) ∧
      (s.delete_file p).2.vectors = s.vectors.filter (fun w => w.file_id != row.id) := by
  unfold Store.delete_file
  rw [hfind]
  exact ⟨rfl, rfl, rfl, rfl⟩

lemma search_similar_files_from_rows (s : Store) (v : List Int) (limit : Nat) :
    ∀ x ∈ s.search_similar_files v limit, ∃ row ∈ s.files, x.1 = row.record ∧
      ∃ w, s.vectors.find? (fun u => u.file_id == row.id) = some w ∧
        x.2 = sqDist v w.vec := by
  intro x hx
  simp only [Store.search_similar_files] at hx
  have hx2 := (List.perm_insertionSort simLE _).mem_iff.mp
    (List.mem_of_mem_take hx)
  rcases List.mem_filterMap.mp hx2 with ⟨row, hrow, hmap⟩
  cases hw : s.vectors.find? (fun u => u.file_id == row.id) with
  | none =>
    rw [hw] at hmap
    exact absurd hmap (by simp)
  | some w =>
    rw [hw] at hmap
    have hxeq : x = (row.record, sqDist v w.vec) := (Option.some_inj.mp hmap).symm
    exact ⟨row, hrow, by rw [hxeq], w, hw, by rw [hxeq]⟩

lemma keyword_search_from_rows (s : Store) (kq : String) (limit : Nat) :
    ∀ x ∈ s.keyword_search kq limit, ∃ row ∈ s.files, x.1 = row.record := by
  intro x hx
  simp only [Store.keyword_search] at hx
  have hx2 := (List.perm_insertionSort kwLE _).mem_iff.mp
    (List.mem_of_mem_take hx)
  rcases List.mem_filterMap.mp hx2 with ⟨row, hrow, hmap⟩
  cases hf : s.fts.find? (fun f => f.rowid == row.id) with
  | none =>
    rw [hf] at hmap
    exact absurd hmap (by simp)
  | some f =>
    rw [hf] at hmap
    have hmap' : (if ftsMatches kq f = true
        then some (row.record, ftsRelevance kq f) else none) = some x := hmap
    by_cases hm : ftsMatches kq f
    · rw [if_pos hm] at hmap'
      have hxeq : x = (row.record, ftsRelevance kq f) := (Option.some_inj.mp hmap').symm
      exact ⟨row, hrow, by rw [hxeq]⟩
    · rw [if_neg hm] at hmap'
      exact absurd hmap' (by simp)

/-- C5: deleting a stored path returns the record exactly as it was,
removes the metadata row, the full-text entry, and the vector entry
together, and afterwards the path is absent from `get_file_by_path` and
from every `keyword_search` and `search_similar_files` result. -/
theorem delete_file_removes (s : Store) (p : String) (rec : FileRecord)
    (h : s.get_file_by_path p = some rec) :
    (s.delete_file p).1 = some rec ∧
      (s.delete_file p).2.get_file_by_path p = none ∧
      (∃ i, s.files.find? (fun q => q.record.file_path == p)
          = some (FileRow.mk i rec) ∧
        (∀ f ∈ (s.delete_file p).2.fts, f.rowid ≠ i) ∧
        (∀ w ∈ (s.delete_file p).2.vectors, w.file_id ≠ i)) ∧
      (∀ kq limit, ∀ x ∈ (s.delete_file p).2.keyword_search kq limit,
        x.1.file_path ≠ p) ∧
      (∀ v limit, ∀ x ∈ (s.delete_file p).2.search_similar_files v limit,
        x.1.file_path ≠ p) := by
  unfold Store.get_file_by_path at h
  cases hfind : s.files.find? (fun q => q.record.file_path == p) with
  | none =>
    rw [hfind] at h
    exact absurd h (by simp)
  | some row =>
    rw [hfind] at h
    have hrec : row.record = rec := Option.some_inj.mp h
    obtain ⟨h1, h2, h3, h4⟩ := delete_file_parts s p row hfind
    have hnop : ∀ q ∈ (s.delete_file p).2.files, q.record.file_path ≠ p := by
      intro q hq
      rw [h2] at hq
      have := (List.mem_filter.mp hq).2
      simpa using this
    refine ⟨by rw [h1, hrec], ?_, ?_, ?_, ?_⟩
    · unfold Store.get_file_by_path
      rw [Option.map_eq_none', List.find?_eq_none]
      intro q hq
      simpa using hnop q hq
    · have hrow_eta : FileRow.mk row.id rec = row := by rw [← hrec]
      refine ⟨row.id, by rw [hrow_eta], ?_, ?_⟩
      · intro f hf
        rw [h3] at hf
        have := (List.mem_filter.mp hf).2
        simpa using this
      · intro w hw
        rw [h4] at hw
        have := (List.mem_filter.mp hw).2
        simpa using this
    · intro kq limit x hx
      rcases keyword_search_from_rows (s.delete_file p).2 kq limit x hx with
        ⟨row', hrow', hxeq⟩
      rw [hxeq]
      exact hnop row' hrow'
    · intro v limit x hx
      rcases search_similar_files_from_rows (s.delete_file p).2 v limit x hx with
        ⟨row', hrow', hxeq, _⟩
      rw [hxeq]
      exact hnop row' hrow'

/-- A concrete stored record for the deletion evaluation. -/
def delRec : FileRecord := baseRec "/d.txt" 3 (some "h") ProcessingStatus.COMPLETE

/-- A concrete store holding `delRec` with its full-text and vector rows. -/
def delStore : Store :=
  { files := [FileRow.mk 1 delRec]
    fts := [mkFtsRow 1 delRec]
    vectors := [{ file_id := 1, vec := [1, 2], model := "m", dims := 2 }]
    dirs := []
    next_file_id := 2
    next_dir_id := 1 }

/-- C5 witness: deleting the stored path returns the record and leaves the
path unfindable, evaluated concretely. -/
theorem delete_file_removes_witness :
    (delStore.delete_file "/d.txt").1 = some delRec ∧
      (delStore.delete_file "/d.txt").2.get_file_by_path "/d.txt" = none :=
  ⟨(delete_file_removes delStore "/d.txt" delRec rfl).1,
    (delete_file_removes delStore "/d.txt" delRec rfl).2.1⟩

/-- C6: deleting a registered watched directory soft-deletes it — the call
returns the directory as it was before deactivation (with its original
path), afterwards no directory with that identifier appears among the
active directories, and the row itself survives, merely inactive. -/
theorem delete_watched_directory_soft (s : Store) (i : Nat)
    (d : WatchedDirectory)
    (h : s.dirs.find? (fun e => e.id == i) = some d) :
    (s.delete_watched_directory i).1 = some d ∧
      (∀ e ∈ (s.delete_watched_directory i).2.get_watched_directories true,
        e.id ≠ i) ∧
      (s.delete_watched_directory i).2.dirs.length = s.dirs.length ∧
      { d with active := false } ∈ (s.delete_watched_directory i).2.dirs ∧
      ({ d with active := false } : WatchedDirectory).path = d.path := by
  have hparts : (s.delete_watched_directory i).1 = some d ∧
      (s.delete_watched_directory i).2.dirs
        = s.dirs.map (fun e => if e.id == i then { e with active := false } else e) := by
    unfold Store.delete_watched_directory
    rw [h]
    exact ⟨rfl, rfl⟩
  refine ⟨hparts.1, ?_, ?_, ?_, rfl⟩
  · intro e he
    unfold Store.get_watched_directories at he
    rw [if_pos rfl, hparts.2] at he
    obtain ⟨hemem, hact⟩ := List.mem_filter.mp he
    rcases List.mem_map.mp hemem with ⟨x, hx, hfx⟩
    intro hei
    by_cases hid : x.id = i
    · have : e = { x with active := false } := by rw [← hfx]; simp [hid]
      rw [this] at hact
      simp at hact
    · have : e = x := by rw [← hfx]; simp [hid]
      rw [this] at hei
      exact hid hei
  · rw [hparts.2, List.length_map]
  · rw [hparts.2]
    have hdm : d ∈ s.dirs := List.mem_of_find?_eq_some h
    have hdi := List.find?_some h
    refine List.mem_map.mpr ⟨d, hdm, ?_⟩
    rw [hdi]
    rfl

/-- A concrete store with one registered watched directory. -/
def dirStore : Store :=
  { files := [], fts := [], vectors := []
    dirs := [{ id := 1, path := "/test/to_delete", recursive := true
               file_pattern := none, active := true }]
    next_file_id := 1
    next_dir_id := 2 }

/-- C6 witness: deleting the registered directory, evaluated concretely. -/
theorem delete_watched_directory_soft_witness :
    (dirStore.delete_watched_directory 1).1
        = some { id := 1, path := "/test/to_delete", recursive := true
                 file_pattern := none, active := true } ∧
      (∀ e ∈ (dirStore.delete_watched_directory 1).2.get_watched_directories true,
        e.id ≠ 1) ∧
      (dirStore.delete_watched_directory 1).2.dirs.length = dirStore.dirs.length ∧
      ({ id := 1, path := "/test/to_delete", recursive := true
         file_pattern := none, active := false } : WatchedDirectory)
        ∈ (dirStore.delete_watched_directory 1).2.dirs ∧
      ("/test/to_delete" : String) = "/test/to_delete" :=
  delete_watched_directory_soft dirStore 1
    { id := 1, path := "/test/to_delete", recursive := true
      file_pattern := none, active := true } rfl

lemma sqDist_nonneg (v : List Int) : ∀ w, 0 ≤ sqDist v w := by
  induction v with
  | nil => intro w; unfold sqDist; simp
  | cons a as ih =>
    intro w
    cases w with
    | nil => unfold sqDist; simp
    | cons b bs =>
      unfold sqDist at ih ⊢
      rw [List.zipWith_cons_cons, List.sum_cons]
      have h1 : 0 ≤ (a - b) * (a - b) := mul_self_nonneg _
      have h2 := ih bs
      linarith

/-- C8: every distance returned by `search_similar_files` is non-negative,
and the result list is ordered ascending by distance with ties broken by
most-recent `modified` (the order `simLE`). -/
theorem search_similar_files_ordering (s : Store) (v : List Int)
    (limit : Nat) :
    (∀ x ∈ s.search_similar_files v limit, 0 ≤ x.2) ∧
      List.Sorted simLE (s.search_similar_files v limit) := by
  constructor
  · intro x hx
    rcases search_similar_files_from_rows s v limit x hx with
      ⟨row, _, _, w, _, hx2⟩
    rw [hx2]
    exact sqDist_nonneg v w.vec
  · simp only [Store.search_similar_files]
    exact List.Pairwise.sublist (List.take_sublist _ _)
      (List.sorted_insertionSort simLE _)

/-- A second stored record, with a vector farther from the query. -/
def simRec2 : FileRecord := baseRec "/f2.txt" 7 (some "h2") ProcessingStatus.COMPLETE

/-- A concrete store with two vectorized records for the search evaluation. -/
def simStore : Store :=
  { files := [FileRow.mk 1 delRec, FileRow.mk 2 simRec2]
    fts := []
    vectors := [{ file_id := 1, vec := [0, 0], model := "m", dims := 2 },
                { file_id := 2, vec := [3, 4], model := "m", dims := 2 }]
    dirs := []
    next_file_id := 3
    next_dir_id := 1 }

/-- C8 witness: the ordering theorem evaluated on a concrete two-vector
store, exhibiting a member result with non-negative distance. -/
theorem search_similar_files_ordering_witness :
    (0 : Int) ≤ (delRec, (0 : Int)).2 ∧
      List.Sorted simLE (simStore.search_similar_files [0, 0] 5) :=
  ⟨(search_similar_files_ordering simStore [0, 0] 5).1 (delRec, 0) (by decide),
    (search_similar_files_ordering simStore [0, 0] 5).2⟩
